import Mathlib

/-!
Verification of the loopah audio player core (Rust) against its
natural-language specification, via a shallow embedding in Lean 4.

Conventions of the embedding:
- `f64` values are modelled as `ℚ` (exact arithmetic; every operation the
  code performs on them — comparison, `floor`, `ceil`, `clamp`,
  `rem_euclid`, `+`, `-`, `*`, `/` — is exact on rationals).
- `u32`/`u16`/`u64`/`usize` are modelled as `ℕ`; Rust integer division is
  `Nat` division, `saturating_sub` is `Nat` subtraction, and the
  saturating `f64 as usize` cast is `Int.toNat ∘ Int.floor`.
- The external decoding library (symphonia) is trusted to hand each packet
  over as interleaved f32 PCM; a decoded packet is modelled as the list of
  its interleaved samples (`List ℚ`), and "the decoder produced whole
  frames" is an explicit hypothesis `channels ∣ packet.length` where a
  statement needs it.
- The source pushes `sqrt(acc_sq / acc_count)` into `rms_preview`; since
  square roots are irrational, the embedding stores the pre-square-root
  mean-of-squares window values. `Real.sqrt` is injective on nonnegative
  inputs and length-preserving under `map`, so every statement below about
  lengths or equality of previews transfers verbatim to the actual RMS
  sequences.
-/

/-- Rust `f64::clamp(lo, hi)`: `max lo (min x hi)`.  Rust panics when
`lo > hi`; all uses below are under the source's guarantee `lo ≤ hi`. -/
def rclamp (x lo hi : ℚ) : ℚ := max lo (min x hi)

/-- Rust `f64::rem_euclid`: for `y > 0` it returns `x - y * ⌊x / y⌋`,
the representative of `x` modulo `y` in `[0, y)`. -/
def remEuclid (x y : ℚ) : ℚ := x - y * (⌊x / y⌋ : ℚ)

theorem rclamp_le_hi {x lo hi : ℚ} (h : lo ≤ hi) : rclamp x lo hi ≤ hi := by
  simp only [rclamp, max_le_iff]
  exact ⟨h, min_le_right _ _⟩

theorem lo_le_rclamp (x lo hi : ℚ) : lo ≤ rclamp x lo hi := le_max_left _ _

theorem rclamp_eq_self {x lo hi : ℚ} (h1 : lo ≤ x) (h2 : x ≤ hi) :
    rclamp x lo hi = x := by
  simp [rclamp, min_eq_left h2, max_eq_right h1]

theorem remEuclid_nonneg {x y : ℚ} (hy : 0 < y) : 0 ≤ remEuclid x y := by
  have h := Int.floor_le (x / y)
  have := mul_le_mul_of_nonneg_left h (le_of_lt hy)
  simp only [remEuclid, sub_nonneg]
  calc y * (⌊x / y⌋ : ℚ) ≤ y * (x / y) := this
    _ = x := by field_simp

theorem remEuclid_lt {x y : ℚ} (hy : 0 < y) : remEuclid x y < y := by
  have h := Int.lt_floor_add_one (x / y)
  have hmul := mul_lt_mul_of_pos_left h hy
  rw [mul_add, mul_one] at hmul
  have hxy : y * (x / y) = x := by field_simp
  rw [hxy] at hmul
  simpa [remEuclid, sub_lt_iff_lt_add'] using hmul

/-! ## Loop Range Model (`src/app.rs`, `LoopRange`)

The Rust struct's second field is named `end`, a Lean keyword; it is
embedded as `stop`. -/

structure LoopRange where
  start : ℚ
  stop : ℚ
deriving DecidableEq, Repr

/-- `LoopRange::ordered(a, b)`: `if a <= b { (a, b) } else { (b, a) }`. -/
def LoopRange.ordered (a b : ℚ) : LoopRange :=
  if a ≤ b then ⟨a, b⟩ else ⟨b, a⟩

/-- `LoopRange::clamp(duration)`: clamp both endpoints into `[0, duration]`
and swap if clamping inverted them. -/
def LoopRange.clamp (r : LoopRange) (duration : ℚ) : LoopRange :=
  let s := rclamp r.start 0 duration
  let e := rclamp r.stop 0 duration
  if e < s then ⟨e, s⟩ else ⟨s, e⟩

/-- `LoopRange::duration()`: `max(0, end - start)`. -/
def LoopRange.duration (r : LoopRange) : ℚ := max (r.stop - r.start) 0

/-! ## Decoder (`src/audio/decode.rs`)

A load is modelled by the sample rate `sr` and channel count `ch` reported
by the probed codec parameters, together with the list `packets` of the
packets the decode loop successfully decoded, each packet being its
interleaved f32 samples.  Packets skipped as corrupt and the tail cut off
by a non-corrupt decode error simply do not appear in `packets`. -/

/-- `let window_frames = (sr / 50).max(1)` — `u32` integer division. -/
def windowFrames (sr : ℕ) : ℕ := max (sr / 50) 1

/-- `DecodedInfo`; `rms_preview` holds the pre-square-root windowed
mean-of-squares values (see the header comment). -/
structure DecodedInfo where
  sample_rate : ℕ
  channels : ℕ
  total_frames : ℕ
  rms_preview : List ℚ
deriving DecidableEq, Repr

/-- `MemoryAudio`: interleaved f32 PCM. -/
structure MemoryAudio where
  sample_rate : ℕ
  channels : ℕ
  frames : ℕ
  data : List ℚ
deriving DecidableEq, Repr

/-- The per-frame mono fold of one packet's interleaved samples:
`frames = samples.len() / chan_count`, and for each frame `f`,
`mono = (Σ_{c < ch} samples[f*ch + c]) / ch`. -/
def monoSeq (ch : ℕ) (samples : List ℚ) : List ℚ :=
  (List.range (samples.length / ch)).map fun f =>
    (((List.range ch).map fun c => samples.getD (f * ch + c) 0).sum) / (ch : ℚ)

/-- The RMS-window accumulation loop of `probe_and_preview` over one
packet's mono sequence: `acc_sq += mono²; acc_count += 1;` and when
`acc_count == window_frames` push `acc_sq / acc_count` (pre-sqrt) and
reset.  The accumulator is declared per packet, so a trailing partial
window is dropped. -/
def accumWindows (w : ℕ) : List ℚ → ℚ → ℕ → List ℚ
  | [], _, _ => []
  | m :: rest, acc, cnt =>
    let acc' := acc + m * m
    let cnt' := cnt + 1
    if cnt' = w then acc' / (w : ℚ) :: accumWindows w rest 0 0
    else accumWindows w rest acc' cnt'

/-- `probe_and_preview`: `total_frames` sums each packet's
`samples.len() / chan_count`; the preview windows restart at every packet
boundary. -/
def probe_and_preview (sr ch : ℕ) (packets : List (List ℚ)) : DecodedInfo :=
  { sample_rate := sr
    channels := ch
    total_frames := (packets.map fun p => p.length / ch).sum
    rms_preview := packets.flatMap fun p => accumWindows (windowFrames sr) (monoSeq ch p) 0 0 }

/-- `decode_all_interleaved`: concatenate every decoded packet's samples;
`frames = out.len() / chs`. -/
def decode_all_interleaved (sr ch : ℕ) (packets : List (List ℚ)) : MemoryAudio :=
  { sample_rate := sr
    channels := ch
    frames := packets.flatten.length / ch
    data := packets.flatten }

/-- Modelled from the spec: the full-decode pass of `spawn_decode_job`
(declared in `src/app.rs` but absent from `src/audio/decode.rs`) produces
the `PreviewReady` `DecodedInfo`; per §4.1 its RMS accumulation carries
state across packet boundaries and flushes a trailing partial window as a
final shorter-window value.  This is that accumulation over the
concatenated mono stream (pre-sqrt values, as everywhere). -/
def fullWindows (w : ℕ) : List ℚ → ℚ → ℕ → List ℚ
  | [], acc, cnt => if cnt = 0 then [] else [acc / (cnt : ℚ)]
  | m :: rest, acc, cnt =>
    let acc' := acc + m * m
    let cnt' := cnt + 1
    if cnt' = w then acc' / (w : ℚ) :: fullWindows w rest 0 0
    else fullWindows w rest acc' cnt'

/-- Modelled from the spec: the full-decode pass preview over a load's
packet stream (carry-across policy, §4.1). -/
def fullDecodePreview (sr ch : ℕ) (packets : List (List ℚ)) : List ℚ :=
  fullWindows (windowFrames sr) (monoSeq ch packets.flatten) 0 0

/-! ## Playback engine, memory mode (`src/audio/playback.rs`) -/

/-- `MemoryState`: full buffer, fractional playhead, resample ratio,
optional loop window `(start, end)` in fractional frames. -/
structure MemoryState where
  src : MemoryAudio
  pos_frame : ℚ
  ratio : ℚ
  loop_range : Option (ℚ × ℚ)
deriving DecidableEq, Repr

/-- `MemoryState::enforce_loop_bounds`: with a loop `(start, end)`, pull a
playhead left of `start` up to `start`, and wrap a playhead at or past
`end` to `start + (p - start).rem_euclid(span)` with
`span = (end - start).max(1.0)`; with no loop, clamp the playhead into
`[0, max(frames - 1, 0)]`. -/
def MemoryState.enforce_loop_bounds (m : MemoryState) : MemoryState :=
  { m with pos_frame :=
      match m.loop_range with
      | some (s, e) =>
        let span := max (e - s) 1
        if m.pos_frame < s then s
        else if m.pos_frame ≥ e then s + remEuclid (m.pos_frame - s) span
        else m.pos_frame
      | none => rclamp m.pos_frame 0 (max ((m.src.frames : ℚ) - 1) 0) }

/-- `MemoryState::set_loop`: convert seconds to frames by flooring the
start and ceiling the end; collapsed (`e <= s`) ranges clear the loop;
clamp `s` into `[0, max(frames-1, 0)]` and `e` into `[s+1, frames]`; a
clamped width `< 1` frame clears the loop; otherwise install the range and
re-enforce the bounds. -/
def MemoryState.set_loop (m : MemoryState) (range_secs : Option (ℚ × ℚ)) : MemoryState :=
  match range_secs with
  | some (start, «end») =>
    let sr : ℚ := m.src.sample_rate
    let s : ℚ := (⌊start * sr⌋ : ℚ)
    let e : ℚ := (⌈«end» * sr⌉ : ℚ)
    if e ≤ s then { m with loop_range := none }
    else
      let max_frame := max ((m.src.frames : ℚ) - 1) 0
      let s' := rclamp s 0 max_frame
      let e' := rclamp e (s' + 1) (m.src.frames : ℚ)
      if e' - s' < 1 then { m with loop_range := none }
      else ({ m with loop_range := some (s', e') }).enforce_loop_bounds
  | none => { m with loop_range := none }

/-- `MemoryState::set_position_seconds`: clamp the target frame into
`[0, max(frames - 1, 0)]`, install it, re-enforce loop bounds. -/
def MemoryState.set_position_seconds (m : MemoryState) (seconds : ℚ) : MemoryState :=
  let sr : ℚ := m.src.sample_rate
  let frame := rclamp (seconds * sr) 0 (max ((m.src.frames : ℚ) - 1) 0)
  ({ m with pos_frame := frame }).enforce_loop_bounds

/-- Result of the memory-mode per-frame render loop: the samples written,
the flat PCM indices read (instrumentation for the bounds-safety claim),
the number of frames written, and the final state. -/
structure MemRun where
  out : List ℚ
  accesses : List ℕ
  wrote : ℕ
  mem : MemoryState
deriving Repr

/-- The `for f in 0..out_frames` loop of `process_memory`, on the number
of remaining output frames: each iteration enforces loop bounds, takes
`i0 = floor(p) as usize` (the Rust cast saturates at 0, as does
`Int.toNat`), breaks when `i0 >= total_frames.saturating_sub(1)`,
otherwise interpolates every channel between frames `i0` and `i0 + 1`,
advances the playhead by `ratio` and enforces bounds again. -/
def memLoop (volume : ℚ) (m : MemoryState) : ℕ → MemRun
  | 0 => ⟨[], [], 0, m⟩
  | n + 1 =>
    let m1 := m.enforce_loop_bounds
    let p := m1.pos_frame
    let i0 := (⌊p⌋).toNat
    let total := m1.src.frames
    if i0 ≥ total - 1 then ⟨[], [], 0, m1⟩
    else
      let ch := m1.src.channels
      let frac := p - (i0 : ℚ)
      let i1 := i0 + 1
      let samples := (List.range ch).map fun c =>
        let s0 := m1.src.data.getD (i0 * ch + c) 0
        let s1 := m1.src.data.getD (i1 * ch + c) 0
        (s0 + (s1 - s0) * frac) * volume
      let reads := (List.range ch).flatMap fun c => [i0 * ch + c, i1 * ch + c]
      let m2 := ({ m1 with pos_frame := m1.pos_frame + m1.ratio }).enforce_loop_bounds
      let rest := memLoop volume m2 n
      ⟨samples ++ rest.out, reads ++ rest.accesses, rest.wrote + 1, rest.mem⟩

/-- `process_memory` over an output buffer of `len` samples: silence when
not playing or `ch == 0`; otherwise run the frame loop for
`len / ch` frames, zero-fill from `wrote * ch` to the end, and finally
clamp the playhead down to `total_frames` if it ran past it. -/
def process_memory (m : MemoryState) (playing : Bool) (volume : ℚ) (len : ℕ) :
    List ℚ × MemoryState :=
  let ch := m.src.channels
  if ¬playing ∨ ch = 0 then (List.replicate len 0, m)
  else
    let r := memLoop volume m (len / ch)
    let out := r.out ++ List.replicate (len - r.wrote * ch) 0
    let mem2 :=
      if r.mem.pos_frame ≥ (m.src.frames : ℚ)
      then { r.mem with pos_frame := (m.src.frames : ℚ) }
      else r.mem
    (out, mem2)

/-! ## Playback engine, stream mode (`src/audio/playback.rs`) -/

/-- `StreamState` (the fields the render step touches; the source also
stores `sample_rate`, which the render step does not read).  The source's
`initialized` flag is embedded as `inited`. -/
structure StreamSt where
  pending : List (List ℚ)
  chunk_offset : ℕ
  prev_frame : List ℚ
  next_frame : List ℚ
  inited : Bool
  phase : ℚ
  ratio : ℚ
  pos_frame : ℚ
  channels : ℕ
  finished : Bool
deriving DecidableEq, Repr

/-- `read_frame`: pop empty/short chunks until one holds a full frame at
`chunk_offset`; copy `channels` samples out, advance the offset, drop the
chunk once consumed.  Returns the frame plus the updated queue and offset,
or `none` when the queue is exhausted. -/
def readFrame (ch : ℕ) : List (List ℚ) → ℕ → Option (List ℚ × List (List ℚ) × ℕ)
  | [], _ => none
  | c :: rest, off =>
    if off + ch > c.length then readFrame ch rest 0
    else
      let fr := (c.drop off).take ch
      let off' := off + ch
      if off' ≥ c.length then some (fr, rest, 0) else some (fr, c :: rest, off')

/-- Result of the `while phase >= 1.0` pull loop. -/
structure PullRes where
  ok : Bool
  phase : ℚ
  prev_frame : List ℚ
  next_frame : List ℚ
  pending : List (List ℚ)
  chunk_offset : ℕ
deriving DecidableEq, Repr

/-- The `while phase >= 1.0` loop of `process_stream`, run for its
iteration count `k = ⌊phase⌋.toNat` (each iteration subtracts 1 from
`phase`, so the loop runs exactly that often): per iteration,
`phase -= 1.0`, `prev` takes `next`, and a fresh `next` is pulled; a
failed pull stops the loop with `ok := false`. -/
def pullFrames (ch : ℕ) : ℕ → ℚ → List ℚ → List ℚ → List (List ℚ) → ℕ → PullRes
  | 0, phase, prev, next, pending, off => ⟨true, phase, prev, next, pending, off⟩
  | k + 1, phase, _prev, next, pending, off =>
    let phase' := phase - 1
    let prev' := next
    match readFrame ch pending off with
    | none => ⟨false, phase', prev', next, pending, off⟩
    | some (fr, p', o') => pullFrames ch k phase' prev' fr p' o'

/-- One emitted frame of `process_stream`: interpolate `prev`/`next` at
`frac = phase`, advance `phase` and `pos_frame` by `ratio`, then run the
phase-advance pull loop.  Returns the frame's samples, the updated state,
and whether the render loop must stop (a pull failed; when `finished` the
state also de-initializes so a restart reinitializes cleanly). -/
def streamEmit (volume : ℚ) (st : StreamSt) : List ℚ × StreamSt × Bool :=
  let ch := st.channels
  let frac := st.phase
  let samples := (List.range ch).map fun c =>
    let s0 := st.prev_frame.getD c 0
    let s1 := st.next_frame.getD c 0
    (s0 + (s1 - s0) * frac) * volume
  let phase1 := st.phase + st.ratio
  let pos1 := st.pos_frame + st.ratio
  let k := (⌊phase1⌋).toNat
  let pr := pullFrames ch k phase1 st.prev_frame st.next_frame st.pending st.chunk_offset
  let st1 := { st with
               phase := pr.phase, pos_frame := pos1, prev_frame := pr.prev_frame,
               next_frame := pr.next_frame, pending := pr.pending,
               chunk_offset := pr.chunk_offset }
  if pr.ok then (samples, st1, false)
  else if st1.finished then (samples, { st1 with inited := false }, true)
  else (samples, st1, true)

/-- The `while frame_idx < frames_out` body of `process_stream`, on the
number of remaining output frames; returns the written samples (the
source zero-fills the buffer tail with `zero_from`, modelled by the
`List.replicate _ 0` appends) and the final state. -/
def streamLoop (volume : ℚ) (st : StreamSt) : ℕ → List ℚ × StreamSt
  | 0 => ([], st)
  | n + 1 =>
    let ch := st.channels
    if ¬st.inited then
      match readFrame ch st.pending st.chunk_offset with
      | none => (List.replicate ((n + 1) * ch) 0, st)
      | some (fr, p1, o1) =>
        let st1 := { st with prev_frame := fr, pending := p1, chunk_offset := o1 }
        match readFrame ch st1.pending st1.chunk_offset with
        | none => (List.replicate ((n + 1) * ch) 0, st1)
        | some (fr2, p2, o2) =>
          let st2 := { st1 with
                       next_frame := fr2, pending := p2, chunk_offset := o2,
                       inited := true }
          let step := streamEmit volume st2
          if step.2.2 then (step.1 ++ List.replicate (n * ch) 0, step.2.1)
          else
            let rest := streamLoop volume step.2.1 n
            (step.1 ++ rest.1, rest.2)
    else
      let step := streamEmit volume st
      if step.2.2 then (step.1 ++ List.replicate (n * ch) 0, step.2.1)
      else
        let rest := streamLoop volume step.2.1 n
        (step.1 ++ rest.1, rest.2)

/-- `process_stream`: when not playing, silence and no state change (the
drain happens after the playing check); otherwise drain every available
chunk into the pending queue — a disconnected sender sets `finished` —
then run the render loop for `len / channels` frames. -/
def process_stream (st : StreamSt) (playing : Bool) (volume : ℚ)
    (avail : List (List ℚ)) (disconnected : Bool) (len : ℕ) : List ℚ × StreamSt :=
  if ¬playing then (List.replicate len 0, st)
  else
    let st1 := { st with
                 pending := st.pending ++ avail,
                 finished := st.finished ∨ disconnected }
    streamLoop volume st1 (len / st.channels)

/-! ## Supporting lemmas -/

theorem windowFrames_pos (sr : ℕ) : 0 < windowFrames sr := by
  simp [windowFrames]

/-- `Int.floor` of a natural quotient is the `Nat` division the source
performs on `u32`s. -/
theorem intFloor_natCast_div (a b : ℕ) : ⌊(a : ℚ) / (b : ℚ)⌋ = (a / b : ℕ) := by
  have h0 : (0:ℚ) ≤ (a:ℚ) / b := by positivity
  have h1 : ⌊(a : ℚ) / b⌋₊ = a / b := Nat.floor_div_eq_div a b
  have h2 := Int.floor_toNat ((a:ℚ) / b)
  have h3 : (0:ℤ) ≤ ⌊(a : ℚ) / b⌋ := Int.floor_nonneg.mpr h0
  omega

/-- `enforce_loop_bounds` only moves the playhead. -/
theorem enforce_loop_bounds_src (m : MemoryState) :
    m.enforce_loop_bounds.src = m.src := rfl

theorem enforce_loop_bounds_loop_range (m : MemoryState) :
    m.enforce_loop_bounds.loop_range = m.loop_range := rfl

theorem enforce_loop_bounds_ratio (m : MemoryState) :
    m.enforce_loop_bounds.ratio = m.ratio := rfl

theorem enforce_loop_bounds_pos (m : MemoryState) :
    m.enforce_loop_bounds.pos_frame =
      match m.loop_range with
      | some (s, e) =>
        if m.pos_frame < s then s
        else if m.pos_frame ≥ e then
          s + remEuclid (m.pos_frame - s) (max (e - s) 1)
        else m.pos_frame
      | none => rclamp m.pos_frame 0 (max ((m.src.frames : ℚ) - 1) 0) := rfl

/-- With a loop `(s, e)` of width at least one frame installed, wrapping a
playhead `p ≥ e` uses span `e - s` and lands in `[s, e)`. -/
theorem enforce_wrap {m : MemoryState} {s e : ℚ}
    (hloop : m.loop_range = some (s, e)) (hspan : 1 ≤ e - s)
    (hp : e ≤ m.pos_frame) :
    m.enforce_loop_bounds.pos_frame = s + remEuclid (m.pos_frame - s) (e - s) ∧
    s ≤ m.enforce_loop_bounds.pos_frame ∧ m.enforce_loop_bounds.pos_frame < e := by
  have hes : 0 < e - s := lt_of_lt_of_le one_pos hspan
  have hse : s < e := by linarith
  have hps : ¬m.pos_frame < s := by
    intro h
    exact absurd (lt_of_le_of_lt hp h) (not_lt.mpr (le_of_lt hse))
  have hmax : max (e - s) 1 = e - s := max_eq_left hspan
  have hpe : m.pos_frame ≥ e := hp
  have hval : m.enforce_loop_bounds.pos_frame =
      s + remEuclid (m.pos_frame - s) (e - s) := by
    rw [enforce_loop_bounds_pos, hloop]
    dsimp
    rw [if_neg hps, if_pos hpe, hmax]
  refine ⟨hval, ?_, ?_⟩
  · have := remEuclid_nonneg (x := m.pos_frame - s) hes
    rw [hval]
    linarith
  · have := remEuclid_lt (x := m.pos_frame - s) hes
    rw [hval]
    linarith

/-- The post-clamp loop range installed by `set_loop` always satisfies
`0 ≤ s`, `s ≤ max(frames-1, 0)`, `s + 1 ≤ e` and `e ≤ frames` when the
buffer is non-empty: the invariant every active memory-mode loop window
enjoys. -/
theorem set_loop_invariant {m : MemoryState} {r : Option (ℚ × ℚ)} {s e : ℚ}
    (hfr : 1 ≤ m.src.frames)
    (h : (m.set_loop r).loop_range = some (s, e)) :
    0 ≤ s ∧ s ≤ max ((m.src.frames : ℚ) - 1) 0 ∧ s + 1 ≤ e ∧ e ≤ (m.src.frames : ℚ) := by
  have hfr1 : (1 : ℚ) ≤ (m.src.frames : ℚ) := by exact_mod_cast hfr
  have hmax0 : (0 : ℚ) ≤ max ((m.src.frames : ℚ) - 1) 0 := le_max_right _ _
  have hmaxeq : max ((m.src.frames : ℚ) - 1) 0 = (m.src.frames : ℚ) - 1 :=
    max_eq_left (by linarith)
  rcases r with _ | ⟨a, b⟩
  · simp [MemoryState.set_loop] at h
  · unfold MemoryState.set_loop at h
    dsimp at h
    split at h
    · simp at h
    · split at h
      · simp at h
      · rw [enforce_loop_bounds_loop_range] at h
        dsimp at h
        rw [Option.some.injEq, Prod.mk.injEq] at h
        obtain ⟨hs, he⟩ := h
        subst hs he
        refine ⟨lo_le_rclamp _ _ _, rclamp_le_hi hmax0, lo_le_rclamp _ _ _, ?_⟩
        have hsle : rclamp (⌊a * (m.src.sample_rate : ℚ)⌋ : ℚ) 0
            (max ((m.src.frames : ℚ) - 1) 0) ≤ (m.src.frames : ℚ) - 1 :=
          (rclamp_le_hi hmax0).trans (le_of_eq hmaxeq)
        refine rclamp_le_hi ?_
        linarith


/-! ## Claim theorems -/

/-- C5: for all rational endpoints `a`, `b`, `LoopRange.ordered a b` has
`start ≤ end`; and for every `LoopRange` and every duration `d ≥ 0`
(a file duration is nonnegative; for `d < 0` the source's
`f64::clamp(0.0, d)` panics rather than returning a range), `clamp d`
returns a range with `0 ≤ start ≤ end ≤ d`. -/
theorem c5_ordered_clamp_bounds (a b : ℚ) (r : LoopRange) (d : ℚ) (hd : 0 ≤ d) :
    (LoopRange.ordered a b).start ≤ (LoopRange.ordered a b).stop ∧
    0 ≤ (r.clamp d).start ∧ (r.clamp d).start ≤ (r.clamp d).stop ∧
    (r.clamp d).stop ≤ d := by
  refine ⟨?_, ?_⟩
  · unfold LoopRange.ordered
    split
    · assumption
    · dsimp
      linarith [lt_of_not_le (by assumption : ¬a ≤ b)]
  · unfold LoopRange.clamp
    dsimp only
    split
    · exact ⟨lo_le_rclamp _ _ _, le_of_lt (by assumption), rclamp_le_hi hd⟩
    · exact ⟨lo_le_rclamp _ _ _, le_of_not_lt (by assumption), rclamp_le_hi hd⟩

/-- Witness for C5 at `a = 3, b = -2`, `r = (7, -1)`, `d = 5`. -/
theorem c5_ordered_clamp_bounds_witness :
    (LoopRange.ordered 3 (-2)).start ≤ (LoopRange.ordered 3 (-2)).stop ∧
    0 ≤ ((⟨7, -1⟩ : LoopRange).clamp 5).start ∧
    ((⟨7, -1⟩ : LoopRange).clamp 5).start ≤ ((⟨7, -1⟩ : LoopRange).clamp 5).stop ∧
    ((⟨7, -1⟩ : LoopRange).clamp 5).stop ≤ 5 :=
  c5_ordered_clamp_bounds 3 (-2) ⟨7, -1⟩ 5 (by norm_num)

/-- C3 fails as stated: the source computes the RMS window size with
truncating `u32` division, `(sr / 50).max(1)`, not with arithmetic
rounding of the real quotient.  At `sample_rate = 75` the code yields
window `1` while `max(1, round(75/50)) = max(1, round(1.5)) = 2`. -/
theorem c3_counterexample :
    (windowFrames 75 : ℤ) ≠ max 1 (round ((75 : ℚ) / 50)) := by
  have hr : round ((75 : ℚ) / 50) = 2 := by
    rw [round_eq]
    norm_num
  rw [hr]
  decide

/-- C3 amended: for every sample rate, the RMS preview window size equals
`max(1, ⌊sample_rate / 50⌋)` frames — the floor, not the rounding, of the
real quotient. -/
theorem c3_window_size_floor (sr : ℕ) :
    (windowFrames sr : ℤ) = max 1 ⌊(sr : ℚ) / 50⌋ := by
  have h50 : ((50 : ℕ) : ℚ) = (50 : ℚ) := by norm_num
  rw [← h50, intFloor_natCast_div sr 50]
  unfold windowFrames
  omega

/-- C1: with an active memory-mode loop `(s, e)` — which, coming from
`set_loop`, is at least one frame wide (`set_loop_invariant`) — whenever
the fractional playhead reaches or exceeds `e`, `enforce_loop_bounds` sets
it to `s + (p - s) mod (e - s)`, which lies in `[s, e)` for any overshoot,
however large. -/
theorem c1_loop_wrap (m : MemoryState) (s e : ℚ)
    (hloop : m.loop_range = some (s, e)) (hspan : 1 ≤ e - s)
    (hp : e ≤ m.pos_frame) :
    m.enforce_loop_bounds.pos_frame = s + remEuclid (m.pos_frame - s) (e - s) ∧
    s ≤ m.enforce_loop_bounds.pos_frame ∧ m.enforce_loop_bounds.pos_frame < e :=
  enforce_wrap hloop hspan hp

/-- A concrete memory state for the C1 witness: loop `(2, 5)` frames,
playhead at `100` (an overshoot of many loop lengths). -/
def c1State : MemoryState :=
  ⟨⟨48000, 2, 200, List.replicate 400 0⟩, 100, 1, some (2, 5)⟩

/-- Witness for C1: wrapping playhead `100` in loop `(2, 5)`. -/
theorem c1_loop_wrap_witness :
    c1State.enforce_loop_bounds.pos_frame = 2 + remEuclid (100 - 2) (5 - 2) ∧
    2 ≤ c1State.enforce_loop_bounds.pos_frame ∧
    c1State.enforce_loop_bounds.pos_frame < 5 :=
  c1_loop_wrap c1State 2 5 rfl (by norm_num)
    (by show (5 : ℚ) ≤ 100; norm_num)

/-- A memory state with an odd sample rate (3 Hz, 10 frames) on which
C2's degenerate-range rule fails. -/
def c2State : MemoryState := ⟨⟨3, 1, 10, List.replicate 10 0⟩, 0, 1, none⟩

/-- C2 fails as stated: `set_loop(Some((0.5, 0.5)))` has zero width,
smaller than one sample period `1/3`, yet because the source floors
`start * sr` and ceils `end * sr` the range expands to the one-frame loop
`(1, 2)` instead of collapsing to `None`. -/
theorem c2_counterexample :
    (c2State.set_loop (some (1/2, 1/2))).loop_range = some (1, 2) ∧
    (1/2 : ℚ) - 1/2 < 1 / (c2State.src.sample_rate : ℚ) := by
  have hceil : ⌈(3 : ℚ) / 2⌉ = 2 := by
    rw [Int.ceil_eq_iff]
    constructor <;> norm_num
  constructor
  · unfold MemoryState.set_loop c2State
    norm_num [hceil, enforce_loop_bounds_loop_range, rclamp]
  · norm_num [c2State]

/-- C2 amended: `set_loop(Some((start, end)))` yields no active loop
whenever the frame-expanded endpoints collapse, i.e. when
`⌈end * sr⌉ ≤ ⌊start * sr⌋`; in particular a zero-width range at a
frame-aligned position — such as `(0.5, 0.5)` at 48000 Hz — yields
`loop_range == None`, but a zero-width range strictly between frame
boundaries installs a one-frame loop (see the counterexample). -/
theorem c2_collapsed_range_clears_loop (m : MemoryState) (a b : ℚ)
    (h : ((⌈b * (m.src.sample_rate : ℚ)⌉ : ℚ) ≤ (⌊a * (m.src.sample_rate : ℚ)⌋ : ℚ))) :
    (m.set_loop (some (a, b))).loop_range = none := by
  unfold MemoryState.set_loop
  dsimp only
  rw [if_pos h]

/-- A memory state at 48000 Hz for the C2 witness. -/
def c2State48k : MemoryState :=
  ⟨⟨48000, 1, 48000, List.replicate 48000 0⟩, 0, 1, none⟩

/-- Witness for amended C2: `set_loop(Some((0.5, 0.5)))` at 48000 Hz
(frame-aligned) clears the loop. -/
theorem c2_collapsed_range_clears_loop_witness :
    (c2State48k.set_loop (some (1/2, 1/2))).loop_range = none :=
  c2_collapsed_range_clears_loop c2State48k (1/2) (1/2) (by
    show (⌈(1/2 : ℚ) * (48000 : ℕ)⌉ : ℚ) ≤ (⌊(1/2 : ℚ) * (48000 : ℕ)⌋ : ℚ)
    have h : (1/2 : ℚ) * (48000 : ℕ) = ((24000 : ℤ) : ℚ) := by norm_num
    rw [h, Int.ceil_intCast, Int.floor_intCast])

/-- C9: whatever value is passed to `set_position_seconds` — negative,
inside, or past the file — the resulting playhead lies in
`[0, max(frames - 1, 0)]`, and additionally in `[start, end)` whenever a
loop is active.  The loop hypothesis is exactly the invariant
`set_loop_invariant` shows every installed loop range satisfies. -/
theorem c9_seek_in_bounds (m : MemoryState) (seconds : ℚ)
    (hinv : ∀ s e, m.loop_range = some (s, e) →
      0 ≤ s ∧ s ≤ max ((m.src.frames : ℚ) - 1) 0 ∧ s + 1 ≤ e ∧
      e ≤ (m.src.frames : ℚ)) :
    (0 ≤ (m.set_position_seconds seconds).pos_frame ∧
     (m.set_position_seconds seconds).pos_frame ≤ max ((m.src.frames : ℚ) - 1) 0) ∧
    ∀ s e, m.loop_range = some (s, e) →
      s ≤ (m.set_position_seconds seconds).pos_frame ∧
      (m.set_position_seconds seconds).pos_frame < e := by
  have hmax0 : (0 : ℚ) ≤ max ((m.src.frames : ℚ) - 1) 0 := le_max_right _ _
  set f := rclamp (seconds * (m.src.sample_rate : ℚ)) 0
    (max ((m.src.frames : ℚ) - 1) 0) with hf
  have hf0 : 0 ≤ f := lo_le_rclamp _ _ _
  have hfmax : f ≤ max ((m.src.frames : ℚ) - 1) 0 := rclamp_le_hi hmax0
  have hm' : m.set_position_seconds seconds =
      ({ m with pos_frame := f }).enforce_loop_bounds := rfl
  rcases hL : m.loop_range with _ | ⟨s, e⟩
  · have hpos : (m.set_position_seconds seconds).pos_frame =
        rclamp f 0 (max ((m.src.frames : ℚ) - 1) 0) := by
      rw [hm', enforce_loop_bounds_pos]
      show (match m.loop_range with
        | some (s, e) =>
          if f < s then s
          else if f ≥ e then s + remEuclid (f - s) (max (e - s) 1)
          else f
        | none => rclamp f 0 (max ((m.src.frames : ℚ) - 1) 0)) = _
      rw [hL]
    rw [hpos]
    refine ⟨⟨lo_le_rclamp _ _ _, rclamp_le_hi hmax0⟩, ?_⟩
    intro s e h
    exact absurd h (by simp)
  · obtain ⟨h0s, hsmax, hs1e, hefr⟩ := hinv s e hL
    have hpos : (m.set_position_seconds seconds).pos_frame =
        (if f < s then s
         else if f ≥ e then s + remEuclid (f - s) (max (e - s) 1)
         else f) := by
      rw [hm', enforce_loop_bounds_pos]
      show (match m.loop_range with
        | some (s, e) =>
          if f < s then s
          else if f ≥ e then s + remEuclid (f - s) (max (e - s) 1)
          else f
        | none => rclamp f 0 (max ((m.src.frames : ℚ) - 1) 0)) = _
      rw [hL]
    have hspan : (1 : ℚ) ≤ e - s := by linarith
    have hmaxspan : max (e - s) 1 = e - s := max_eq_left hspan
    by_cases h1 : f < s
    · rw [hpos, if_pos h1]
      exact ⟨⟨h0s, hsmax⟩, fun s' e' h => by
        obtain ⟨rfl, rfl⟩ : s = s' ∧ e = e' := by
          simpa [Prod.ext_iff] using h
        exact ⟨le_refl _, by linarith⟩⟩
    · by_cases h2 : f ≥ e
      · rw [hpos, if_neg h1, if_pos h2, hmaxspan]
        have hr0 := remEuclid_nonneg (x := f - s) (by linarith : (0:ℚ) < e - s)
        have hrlt := remEuclid_lt (x := f - s) (by linarith : (0:ℚ) < e - s)
        refine ⟨⟨by linarith, by linarith⟩, fun s' e' h => ?_⟩
        obtain ⟨rfl, rfl⟩ : s = s' ∧ e = e' := by
          simpa [Prod.ext_iff] using h
        exact ⟨by linarith, by linarith⟩
      · rw [hpos, if_neg h1, if_neg h2]
        refine ⟨⟨hf0, hfmax⟩, fun s' e' h => ?_⟩
        obtain ⟨rfl, rfl⟩ : s = s' ∧ e = e' := by
          simpa [Prod.ext_iff] using h
        exact ⟨le_of_not_lt h1, lt_of_not_le h2⟩

/-- A memory state for the C9 witness: 10 frames at 2 Hz with the active
loop `(2, 5)`; the seek target `100 s` is far past the file end. -/
def c9State : MemoryState :=
  ⟨⟨2, 1, 10, List.replicate 10 0⟩, 0, 1, some (2, 5)⟩

/-- Witness for C9: seeking to `100` seconds on `c9State`. -/
theorem c9_seek_in_bounds_witness :
    (0 ≤ (c9State.set_position_seconds 100).pos_frame ∧
     (c9State.set_position_seconds 100).pos_frame ≤
       max ((c9State.src.frames : ℚ) - 1) 0) ∧
    ∀ s e, c9State.loop_range = some (s, e) →
      s ≤ (c9State.set_position_seconds 100).pos_frame ∧
      (c9State.set_position_seconds 100).pos_frame < e :=
  c9_seek_in_bounds c9State 100 (by
    intro s e h
    obtain ⟨rfl, rfl⟩ : (2 : ℚ) = s ∧ (5 : ℚ) = e := by
      simpa [c9State, Prod.ext_iff] using h
    refine ⟨by norm_num, ?_, by norm_num, ?_⟩ <;> norm_num [c9State])

/-- C8: the `MemoryAudio` built by the full decode satisfies
`data.len() == frames * channels` for every sequence of decoded packets
(skipped corrupt packets and early termination only shorten the list),
given the trusted decoder's guarantee that each packet holds whole
interleaved frames (`ch ∣ p.length`). -/
theorem c8_data_len_invariant (sr ch : ℕ) (pkts : List (List ℚ)) (hch : 0 < ch)
    (hdiv : ∀ p ∈ pkts, ch ∣ p.length) :
    (decode_all_interleaved sr ch pkts).data.length =
      (decode_all_interleaved sr ch pkts).frames *
        (decode_all_interleaved sr ch pkts).channels := by
  have hd : ch ∣ pkts.flatten.length := by
    rw [List.length_flatten]
    refine List.dvd_sum ?_
    intro x hx
    obtain ⟨p, hp, rfl⟩ := List.mem_map.mp hx
    exact hdiv p hp
  show pkts.flatten.length = pkts.flatten.length / ch * ch
  exact (Nat.div_mul_cancel hd).symm

/-- Witness for C8 on a two-packet stereo stream. -/
theorem c8_data_len_invariant_witness :
    (decode_all_interleaved 48000 2 [[1, 2], [3, 4, 5, 6]]).data.length =
      (decode_all_interleaved 48000 2 [[1, 2], [3, 4, 5, 6]]).frames *
        (decode_all_interleaved 48000 2 [[1, 2], [3, 4, 5, 6]]).channels :=
  c8_data_len_invariant 48000 2 [[1, 2], [3, 4, 5, 6]] (by decide)
    (by intro p hp; fin_cases hp <;> decide)

/-- The window loop of one packet emits exactly `⌊(cnt + len) / w⌋`
values when entered with `cnt < w` already accumulated. -/
theorem accumWindows_length (w : ℕ) (l : List ℚ) :
    ∀ (acc : ℚ) (cnt : ℕ), cnt < w →
      (accumWindows w l acc cnt).length = (cnt + l.length) / w := by
  induction l with
  | nil =>
    intro acc cnt h
    simp [accumWindows, Nat.div_eq_of_lt h]
  | cons m rest ih =>
    intro acc cnt h
    simp only [accumWindows]
    by_cases hw : cnt + 1 = w
    · rw [if_pos hw]
      have hw0 : 0 < w := by omega
      have harith : (cnt + (m :: rest).length) / w = 1 + rest.length / w := by
        have h1 : cnt + (m :: rest).length = w + rest.length := by
          simp [List.length_cons]
          omega
        rw [h1, Nat.add_div_of_dvd_right dvd_rfl, Nat.div_self hw0]
      rw [harith]
      simp only [List.length_cons, ih 0 0 hw0, Nat.zero_add]
      omega
    · rw [if_neg hw]
      rw [ih _ _ (by omega)]
      congr 1
      simp [List.length_cons]
      omega

/-- `monoSeq` yields one mono value per whole frame. -/
theorem monoSeq_length (ch : ℕ) (samples : List ℚ) :
    (monoSeq ch samples).length = samples.length / ch := by
  simp [monoSeq]

/-- C4 fails as stated: the preview length is not a function of
`total_frames` and `window_frames` alone.  At `sample_rate = 100`
(window 2), mono, two one-frame packets give `total_frames = 2` but an
empty preview, while both candidate policies — `⌊2 / 2⌋` and `⌈2 / 2⌉` —
predict length 1: the per-packet accumulator reset drops a partial window
in *each* packet, so the packet partition matters. -/
theorem c4_counterexample :
    ((probe_and_preview 100 1 [[0], [0]]).rms_preview.length : ℤ) ≠
        ⌊((probe_and_preview 100 1 [[0], [0]]).total_frames : ℚ) /
          (windowFrames 100 : ℚ)⌋ ∧
    ((probe_and_preview 100 1 [[0], [0]]).rms_preview.length : ℤ) ≠
        ⌈((probe_and_preview 100 1 [[0], [0]]).total_frames : ℚ) /
          (windowFrames 100 : ℚ)⌉ := by
  have hlen : (probe_and_preview 100 1 [[0], [0]]).rms_preview.length = 0 := rfl
  have htot : (probe_and_preview 100 1 [[0], [0]]).total_frames = 2 := rfl
  have hw : windowFrames 100 = 2 := rfl
  rw [hlen, htot, hw]
  norm_num

/-- C4 amended: the preview length equals the *sum over packets* of
`⌊packet_frames / window_frames⌋`; the accumulator resets at every packet
boundary and each packet's trailing partial window is dropped, so the
length depends on the packet partition, not only on `total_frames`. -/
theorem c4_preview_length (sr ch : ℕ) (pkts : List (List ℚ)) :
    (probe_and_preview sr ch pkts).rms_preview.length =
      (pkts.map fun p => p.length / ch / windowFrames sr).sum := by
  unfold probe_and_preview
  dsimp only
  rw [List.length_flatMap]
  congr 1
  refine List.map_congr_left ?_
  intro p _
  simp only [Function.comp]
  rw [accumWindows_length _ _ 0 0 (windowFrames_pos sr), monoSeq_length]
  simp

/-- C7: in stream mode, when the sender has disconnected and the pending
queue is exhausted, the render step writes exactly silence (the buffer is
`frames_out = len / channels` output frames), the `finished` flag is set
by the drain loop, and the state stays un-initialized so a restart
reinitializes cleanly.  No frame can be pulled from the empty queue
(`read_frame` returns `false`), so interpolation reads no sample data at
all in this scenario — output is all zeros. -/
theorem c7_disconnect_silence (st : StreamSt) (volume : ℚ) (len : ℕ)
    (hpend : st.pending = []) (hinit : st.inited = false) :
    (process_stream st true volume [] true len).1 =
      List.replicate (len / st.channels * st.channels) 0 ∧
    (process_stream st true volume [] true len).2.finished = true ∧
    (process_stream st true volume [] true len).2.inited = false := by
  have hps : process_stream st true volume [] true len =
      streamLoop volume
        { st with pending := st.pending ++ [], finished := st.finished ∨ True }
        (len / st.channels) := by
    simp [process_stream]
  rw [hps]
  cases hk : len / st.channels with
  | zero =>
    simp [streamLoop, hinit]
  | succ k =>
    simp [streamLoop, hinit, hpend, readFrame, Nat.succ_mul, Nat.mul_comm]

/-- A concrete exhausted stream state for the C7 witness (stereo,
ratio 1/2). -/
def c7State : StreamSt := ⟨[], 0, [0, 0], [0, 0], false, 0, 1/2, 0, 2, false⟩

/-- Witness for C7: a 6-sample callback on the exhausted, disconnected
stream. -/
theorem c7_disconnect_silence_witness :
    (process_stream c7State true 1 [] true 6).1 =
      List.replicate (6 / c7State.channels * c7State.channels) 0 ∧
    (process_stream c7State true 1 [] true 6).2.finished = true ∧
    (process_stream c7State true 1 [] true 6).2.inited = false :=
  c7_disconnect_silence c7State 1 6 rfl rfl

/-- Invariants of the memory render loop: the source buffer is untouched,
the written samples cover exactly `wrote` whole frames, and every PCM
index read is below `frames * channels` — the loop breaks as soon as the
floored playhead reaches `frames - 1`, so both interpolation taps stay
inside the buffer. -/
theorem memLoop_spec (volume : ℚ) (n : ℕ) : ∀ (m : MemoryState),
    (memLoop volume m n).mem.src = m.src ∧
    (memLoop volume m n).out.length = (memLoop volume m n).wrote * m.src.channels ∧
    ∀ a ∈ (memLoop volume m n).accesses, a < m.src.frames * m.src.channels := by
  induction n with
  | zero =>
    intro m
    exact ⟨rfl, by simp [memLoop], by simp [memLoop]⟩
  | succ n ih =>
    intro m
    simp only [memLoop]
    by_cases hbreak : (⌊(m.enforce_loop_bounds).pos_frame⌋).toNat ≥
        m.enforce_loop_bounds.src.frames - 1
    · rw [if_pos hbreak]
      exact ⟨rfl, by simp, by simp⟩
    · rw [if_neg hbreak]
      dsimp only
      set m1 := m.enforce_loop_bounds with hm1
      set i0 := (⌊m1.pos_frame⌋).toNat with hi0
      set m2 := ({ m1 with pos_frame := m1.pos_frame + m1.ratio }).enforce_loop_bounds
        with hm2
      have hsrc2 : m2.src = m.src := rfl
      obtain ⟨ihsrc, ihlen, ihacc⟩ := ih m2
      have hlt : i0 + 1 < m.src.frames := by
        have : i0 < m1.src.frames - 1 := lt_of_not_ge hbreak
        have hsrc1 : m1.src = m.src := rfl
        rw [hsrc1] at this
        omega
      refine ⟨by rw [ihsrc, hsrc2], ?_, ?_⟩
      · simp only [List.length_append, List.length_map, List.length_range, ihlen,
          hsrc2]
        rw [show m1.src.channels = m.src.channels from rfl]
        ring
      · intro a ha
        rw [List.mem_append] at ha
        rcases ha with ha | ha
        · rw [List.mem_flatMap] at ha
          obtain ⟨c, hc, hmem⟩ := ha
          rw [List.mem_range] at hc
          have hch : m1.src.channels = m.src.channels := rfl
          simp only [List.mem_cons, List.mem_singleton, List.not_mem_nil, or_false]
            at hmem
          have hbound : ∀ i, i + 1 ≤ m.src.frames →
              i * m.src.channels + c < m.src.frames * m.src.channels := by
            intro i hi
            calc i * m.src.channels + c
                < i * m.src.channels + m.src.channels := by
                  exact Nat.add_lt_add_left (hch ▸ hc) _
              _ = (i + 1) * m.src.channels := by ring
              _ ≤ m.src.frames * m.src.channels :=
                  Nat.mul_le_mul_right _ hi
          rcases hmem with rfl | rfl
          · exact hch ▸ hbound i0 (by omega)
          · exact hch ▸ hbound (i0 + 1) hlt
        · exact hsrc2 ▸ ihacc a ha

/-- C10: the memory-mode render step never indexes the PCM buffer out of
bounds.  Under the `MemoryAudio` invariant `data.len() == frames *
channels`, every index the interpolation reads (`i0*ch + c` and
`(i0+1)*ch + c`) is below `data.len()`, because the per-frame loop breaks
as soon as the floored playhead reaches `frames - 1`; the output buffer
past the `wrote` frames actually written is zero-filled. -/
theorem c10_memory_render_in_bounds (volume : ℚ) (m : MemoryState) (len : ℕ)
    (hdata : m.src.data.length = m.src.frames * m.src.channels) :
    (∀ a ∈ (memLoop volume m (len / m.src.channels)).accesses,
      a < m.src.data.length) ∧
    ∀ x ∈ (process_memory m true volume len).1.drop
        ((memLoop volume m (len / m.src.channels)).wrote * m.src.channels),
      x = 0 := by
  obtain ⟨hsrc, hlen, hacc⟩ := memLoop_spec volume (len / m.src.channels) m
  constructor
  · intro a ha
    rw [hdata]
    exact hacc a ha
  · intro x hx
    unfold process_memory at hx
    by_cases hch : m.src.channels = 0
    · rw [if_pos (by simp [hch])] at hx
      exact List.eq_of_mem_replicate (List.mem_of_mem_drop hx)
    · rw [if_neg (by simp [hch])] at hx
      dsimp only at hx
      rw [show ((memLoop volume m (len / m.src.channels)).wrote * m.src.channels)
            = (memLoop volume m (len / m.src.channels)).out.length from hlen.symm]
        at hx
      rw [List.drop_left] at hx
      exact List.eq_of_mem_replicate hx

/-- A concrete memory state for the C10 witness: 3 stereo frames. -/
def c10State : MemoryState := ⟨⟨4, 2, 3, [1, 2, 3, 4, 5, 6]⟩, 0, 1, none⟩

/-- Witness for C10 on a 10-sample output buffer. -/
theorem c10_memory_render_in_bounds_witness :
    (∀ a ∈ (memLoop 1 c10State (10 / c10State.src.channels)).accesses,
      a < c10State.src.data.length) ∧
    ∀ x ∈ (process_memory c10State true 1 10).1.drop
        ((memLoop 1 c10State (10 / c10State.src.channels)).wrote *
          c10State.src.channels),
      x = 0 :=
  c10_memory_render_in_bounds 1 c10State 10 rfl

/-- When a packet holds whole frames, the mono fold of a concatenation
splits at the packet boundary. -/
theorem monoSeq_append (ch : ℕ) (p q : List ℚ) (hch : 0 < ch)
    (hdvd : ch ∣ p.length) :
    monoSeq ch (p ++ q) = monoSeq ch p ++ monoSeq ch q := by
  obtain ⟨k, hk⟩ := hdvd
  unfold monoSeq
  have hlen : (p ++ q).length / ch = k + q.length / ch := by
    rw [List.length_append, hk, Nat.mul_add_div hch]
  have hlp : p.length / ch = k := by
    rw [hk, Nat.mul_div_cancel_left _ hch]
  rw [hlen, hlp, List.range_add, List.map_append, List.map_map]
  congr 1
  · refine List.map_congr_left ?_
    intro f hf
    rw [List.mem_range] at hf
    congr 1
    congr 1
    refine List.map_congr_left ?_
    intro c hc
    rw [List.mem_range] at hc
    refine List.getD_append p q 0 _ ?_
    calc f * ch + c < f * ch + ch := Nat.add_lt_add_left hc _
      _ = (f + 1) * ch := by ring
      _ ≤ k * ch := Nat.mul_le_mul_right _ hf
      _ = p.length := by rw [hk]; ring
  · refine List.map_congr_left ?_
    intro f hf
    rw [List.mem_range] at hf
    simp only [Function.comp]
    congr 1
    congr 1
    refine List.map_congr_left ?_
    intro c hc
    rw [List.mem_range] at hc
    have hge : p.length ≤ (k + f) * ch + c := by
      calc p.length = k * ch := by rw [hk]; ring
        _ ≤ (k + f) * ch := Nat.mul_le_mul_right _ (Nat.le_add_right _ _)
        _ ≤ (k + f) * ch + c := Nat.le_add_right _ _
    rw [List.getD_append_right p q 0 _ hge]
    congr 1
    rw [hk]
    ring_nf
    omega

/-- Modelled-from-the-spec carry-across accumulation agrees with the
source's per-packet accumulation on a window-aligned prefix: entered with
`cnt` already accumulated (`cnt < w`, `acc = 0` whenever `cnt = 0`) and a
prefix whose mono count completes the window exactly (`w ∣ cnt + l1.len`),
the carry version emits the per-packet windows of `l1` followed by its own
windows of the rest. -/
theorem fullWindows_split (w : ℕ) (hw : 0 < w) :
    ∀ (l1 l2 : List ℚ) (acc : ℚ) (cnt : ℕ), cnt < w → w ∣ cnt + l1.length →
      (cnt = 0 → acc = 0) →
      fullWindows w (l1 ++ l2) acc cnt =
        accumWindows w l1 acc cnt ++ fullWindows w l2 0 0 := by
  intro l1
  induction l1 with
  | nil =>
    intro l2 acc cnt hlt hdvd hacc
    have hc0 : cnt = 0 := Nat.eq_zero_of_dvd_of_lt hdvd (by simpa using hlt)
    subst hc0
    rw [hacc rfl]
    simp [accumWindows]
  | cons m rest ih =>
    intro l2 acc cnt hlt hdvd hacc
    simp only [List.cons_append, fullWindows, accumWindows]
    by_cases hwin : cnt + 1 = w
    · rw [if_pos hwin, if_pos hwin]
      rw [List.cons_append]
      congr 1
      refine ih l2 0 0 hw ?_ (fun _ => rfl)
      have hshift : cnt + (m :: rest).length = w + rest.length := by
        simp only [List.length_cons]
        omega
      rw [hshift] at hdvd
      simpa using (Nat.dvd_add_right (dvd_refl w)).mp hdvd
    · rw [if_neg hwin, if_neg hwin]
      refine ih l2 (acc + m * m) (cnt + 1) (by omega) ?_
        (fun h => absurd h (Nat.succ_ne_zero _))
      have hshift : cnt + (m :: rest).length = cnt + 1 + rest.length := by
        simp only [List.length_cons]
        omega
      rwa [hshift] at hdvd

/-- When each packet's frame count is a multiple of the window, the
per-packet (reset) preview and the spec-modelled carry-across preview of
the concatenated stream coincide. -/
theorem preview_policies_agree (sr ch : ℕ) (hch : 0 < ch) :
    ∀ (pkts : List (List ℚ)), (∀ p ∈ pkts, ch ∣ p.length) →
      (∀ p ∈ pkts, windowFrames sr ∣ p.length / ch) →
      fullDecodePreview sr ch pkts = (probe_and_preview sr ch pkts).rms_preview := by
  intro pkts
  induction pkts with
  | nil =>
    intro _ _
    simp [fullDecodePreview, probe_and_preview, monoSeq, fullWindows]
  | cons p rest ih =>
    intro hdiv halign
    unfold fullDecodePreview at *
    rw [List.flatten_cons,
      monoSeq_append ch p rest.flatten hch (hdiv p (List.mem_cons_self p rest)),
      fullWindows_split (windowFrames sr) (windowFrames_pos sr) _ _ 0 0
        (windowFrames_pos sr)
        (by
          rw [monoSeq_length]
          simpa using halign p (List.mem_cons_self p rest))
        (fun _ => rfl)]
    rw [ih (fun q hq => hdiv q (List.mem_cons_of_mem p hq))
      (fun q hq => halign q (List.mem_cons_of_mem p hq))]
    unfold probe_and_preview
    simp [List.flatMap_cons]

/-- Per-packet frame counts sum to the frames of the concatenation when
every packet holds whole frames. -/
theorem total_frames_sum_eq (ch : ℕ) :
    ∀ (pkts : List (List ℚ)), (∀ p ∈ pkts, ch ∣ p.length) →
      (pkts.map fun p => p.length / ch).sum = pkts.flatten.length / ch := by
  intro pkts
  induction pkts with
  | nil => intro _; simp
  | cons p rest ih =>
    intro hdiv
    simp only [List.map_cons, List.sum_cons, List.flatten_cons, List.length_append]
    rw [Nat.add_div_of_dvd_right (hdiv p (List.mem_cons_self p rest)),
      ih (fun q hq => hdiv q (List.mem_cons_of_mem p hq))]

/-- C6: on the same decoded packet stream, the preview-only pass
(`probe_and_preview`) and the full pass (`decode_all_interleaved`) agree
on `sample_rate`, `channels` and `total_frames` (given the trusted
decoder's whole-frame packets); and the preview agrees with the
spec-modelled carry-across full-pass preview (`fullDecodePreview`)
whenever every packet is window-aligned — the two documented boundary
policies differ only at non-aligned packet boundaries, which is exactly
the claim's "modulo the documented boundary-policy choice". -/
theorem c6_two_pass_agreement (sr ch : ℕ) (pkts : List (List ℚ)) (hch : 0 < ch)
    (hdiv : ∀ p ∈ pkts, ch ∣ p.length) :
    (probe_and_preview sr ch pkts).sample_rate =
      (decode_all_interleaved sr ch pkts).sample_rate ∧
    (probe_and_preview sr ch pkts).channels =
      (decode_all_interleaved sr ch pkts).channels ∧
    (probe_and_preview sr ch pkts).total_frames =
      (decode_all_interleaved sr ch pkts).frames ∧
    ((∀ p ∈ pkts, windowFrames sr ∣ p.length / ch) →
      (probe_and_preview sr ch pkts).rms_preview = fullDecodePreview sr ch pkts) := by
  refine ⟨rfl, rfl, ?_, ?_⟩
  · exact total_frames_sum_eq ch pkts hdiv
  · intro halign
    exact (preview_policies_agree sr ch hch pkts hdiv halign).symm

/-- Witness for C6: two window-aligned mono packets at `sr = 100`
(window 2). -/
theorem c6_two_pass_agreement_witness :
    (probe_and_preview 100 1 [[1, 2], [3, 4]]).sample_rate =
      (decode_all_interleaved 100 1 [[1, 2], [3, 4]]).sample_rate ∧
    (probe_and_preview 100 1 [[1, 2], [3, 4]]).channels =
      (decode_all_interleaved 100 1 [[1, 2], [3, 4]]).channels ∧
    (probe_and_preview 100 1 [[1, 2], [3, 4]]).total_frames =
      (decode_all_interleaved 100 1 [[1, 2], [3, 4]]).frames ∧
    ((∀ p ∈ [[(1:ℚ), 2], [3, 4]], windowFrames 100 ∣ p.length / 1) →
      (probe_and_preview 100 1 [[1, 2], [3, 4]]).rms_preview =
        fullDecodePreview 100 1 [[1, 2], [3, 4]]) :=
  c6_two_pass_agreement 100 1 [[1, 2], [3, 4]] (by decide)
    (by intro p hp; fin_cases hp <;> decide)
